import Mathlib

/-!
Verification of `nilmtk/stats/electricity/single.py`.

Shallow embedding conventions:
* A `datetime64[ns]` timestamp is an integer number of nanoseconds (`ℤ`).
* A timezone-aware timestamp (`pandas.Timestamp` inside a tz-aware
  `DatetimeIndex`) is a `ZonedTime`: the UTC instant in nanoseconds plus the
  fixed zone offset in nanoseconds (local wall clock = utc + offset).
* A `pandas.Series` of power readings is a `List (ℤ × ℚ)` of
  (timestamp-ns, value) pairs; a bare `DatetimeIndex` is a `List ℤ`.
* floats are modelled by `ℚ` (the quantities involved are exact decimal /
  integer-ns arithmetic; no rounding of binary floats is relied upon by the
  claims).
* A `pandas.Period` of a fixed-length frequency (daily / hourly / minutely)
  is identified by its integer ordinal `k`: the half-open span
  `[k*P, (k+1)*P)` in ns where `P` = `_secs_per_period_alias(freq) * 1e9`.
  `Period.end_time` is the last nanosecond of the period, `(k+1)*P - 1`.
  (Month/year frequencies have variable period length and are outside this
  fixed-`P` model.)
* A raising Python function is modelled by `Except String`.
-/

namespace Nilmtk

/-- Nanoseconds per second: `datetime64[ns]` values are converted to seconds
by dividing by `1e9`. -/
def NS_PER_SEC : ℤ := 1000000000

/-- A tz-aware timestamp: UTC instant (ns) and fixed zone offset (ns).
`ts.replace(tzinfo=None)` (the naive local clock) is `utc + offset`;
`ts.tz_convert('UTC').replace(tzinfo=None)` is `utc`. -/
structure ZonedTime where
  utc : ℤ
  offset : ℤ
deriving DecidableEq, Repr

/-- `np.diff`: forward differences of a sequence. -/
def fwdDiff (l : List ℤ) : List ℤ := List.zipWith (fun a b => b - a) l l.tail

/-- `scipy.stats.mode(...)[0][0]`: the most frequent value; on ties the
smallest such value is returned.  (scipy sorts the data, so the reported
mode of a tie is the smallest.)  Empty input is degenerate in scipy; we
return the default `0` there, and every theorem that touches it assumes at
least two timestamps, as the spec requires. -/
def modeOf (l : List ℤ) : ℤ :=
  l.foldl (fun best x =>
    if l.count best < l.count x then x
    else if l.count x = l.count best ∧ x < best then x
    else best) (l.headD 0)

/-- `sample_period(data)`: mode of the forward differences of the first 100
timestamps, converted from ns to seconds. -/
def sample_period (ts : List ℤ) : ℚ :=
  ((modeOf (fwdDiff (ts.take 100)) : ℚ)) / (NS_PER_SEC : ℚ)

/-- `dropout_rate(df)`: `1 - size / (duration.total_seconds() / sample_period)`.
`duration` is last minus first timestamp; `total_seconds()` divides the ns
count by 1e9. -/
def dropout_rate (ts : List ℤ) : ℚ :=
  1 - (ts.length : ℚ) /
    ((((ts.getLastD 0 - ts.headD 0 : ℤ) : ℚ) / (NS_PER_SEC : ℚ)) / sample_period ts)

/-- `hours_on(series, on_power_threshold, max_sample_period)`.
`i_above_threshold = np.where(series[:-1] >= on_power_threshold)[0]`;
`td_above_thresh` are the ns gaps to the following sample at those indices;
`td_above_thresh[td_above_thresh > max_sample_period] = max_sample_period`
compares the `timedelta64[ns]` array against the bare number, i.e. numpy
interprets `max_sample_period` in nanoseconds (the docstring says seconds);
`.sum().astype('timedelta64[s]')` truncates the ns total to whole seconds
(toward zero), and `SEC_PER_HOUR = 3600`. -/
def hours_on (series : List (ℤ × ℚ)) (on_power_threshold : ℚ)
    (max_sample_period : Option ℤ) : ℚ :=
  let i_above_threshold :=
    ((series.dropLast.enum.filter
      (fun p => decide (on_power_threshold ≤ p.2.2))).map Prod.fst)
  let td0 := i_above_threshold.map
    (fun i => (series.getD (i + 1) (0, 0)).1 - (series.getD i (0, 0)).1)
  let td_above_thresh :=
    match max_sample_period with
    | some m => td0.map (fun d => if m < d then m else d)
    | none => td0
  let secs_on := Int.tdiv td_above_thresh.sum NS_PER_SEC
  (secs_on : ℚ) / 3600

/-- `energy(series, max_sample_period, unit)`.
`td = np.diff(series.index.values)` (ns gaps);
`np.where(td > max_sample_period, max_sample_period, td)` again compares the
ns values against the bare number (nanoseconds, though the docstring says
seconds); `td_secs = td / np.timedelta64(1, 's')` is exact division by 1e9;
joules = `(td_secs * series.values[:-1]).sum()`; `'kwh'` divides by
3,600,000, `'joules'` returns the total, anything else raises `ValueError`. -/
def energy (series : List (ℤ × ℚ)) (max_sample_period : Option ℤ)
    (unit : String) : Except String ℚ :=
  let td0 := fwdDiff (series.map Prod.fst)
  let td :=
    match max_sample_period with
    | some m => td0.map (fun d => if m < d then m else d)
    | none => td0
  let td_secs := td.map (fun d => (d : ℚ) / (NS_PER_SEC : ℚ))
  let joules := (List.zipWith (fun s v => s * v) td_secs
      ((series.map Prod.snd).dropLast)).sum
  if unit = "kwh" then Except.ok (joules / 3600000)
  else if unit = "joules" then Except.ok joules
  else Except.error "unrecognised value for unit."

/-- The value carried by a successful `energy` call (0 in the error case). -/
def energy_val (series : List (ℤ × ℚ)) (max_sample_period : Option ℤ)
    (unit : String) : ℚ :=
  ((energy series max_sample_period unit).toOption).getD 0

/-- Python `int(...)` on a float: truncation toward zero. -/
def pyInt (q : ℚ) : ℤ := if 0 ≤ q then ⌊q⌋ else ⌈q⌉

/-- `pandas.Period(t, freq).end_time` for the period of ordinal `k` and
length `Pns` ns: the last nanosecond of the period. -/
def period_end_time (Pns k : ℤ) : ℤ := (k + 1) * Pns - 1

/-- `pd.period_range(first, last, freq)`: the ordinals of the consecutive
calendar periods from the one containing `first` to the one containing
`last` (`Int.fdiv` is the floor division that maps an instant to its
period's ordinal). -/
def period_range (first last Pns : ℤ) : List ℤ :=
  (List.range ((Int.fdiv last Pns) - (Int.fdiv first Pns) + 1).toNat).map
    (fun i : ℕ => Int.fdiv first Pns + (i : ℤ))

/-- The per-period scanning loop of `_indicies_of_periods`.  State:
`n_rows_processed` and the `boundaries` assoc list built so far.  For each
period: `rows_to_process = datetime_index[n : n + MAX_SAMPLES_PER_2_PERIODS]`,
`indicies_for_period = np.where(rows_to_process < period.end_time)[0]`, and
if nonempty the half-open range
`(indicies[0] + n, indicies[-1] + n + 1)` is recorded and
`n_rows_processed += last_i - first_i`. -/
def indiciesLoop (dt : List ℤ) (Pns : ℤ) (max2 : ℕ) :
    List ℤ → ℕ → List (ℤ × ℕ × ℕ) → ℕ × List (ℤ × ℕ × ℕ)
  | [], n_rows_processed, boundaries => (n_rows_processed, boundaries)
  | period :: rest, n_rows_processed, boundaries =>
    let rows_to_process := (dt.drop n_rows_processed).take max2
    let indicies_for_period :=
      (rows_to_process.enum.filter
        (fun p => decide (p.2 < period_end_time Pns period))).map Prod.fst
    if h : indicies_for_period = [] then
      indiciesLoop dt Pns max2 rest n_rows_processed boundaries
    else
      let first_i := indicies_for_period.head h + n_rows_processed
      let last_i := indicies_for_period.getLast h + n_rows_processed + 1
      indiciesLoop dt Pns max2 rest (n_rows_processed + (last_i - first_i))
        (boundaries ++ [(period, (first_i, last_i))])

/-- The (possibly localised) datetime index used by `_indicies_of_periods`.
With `use_local_time`, `tz_offset = ts.replace(tzinfo=None) -
ts.tz_convert('UTC').replace(tzinfo=None)` for the first timestamp `ts`, and
the whole index is converted to UTC and shifted by that one offset. -/
def dt_index (zts : List ZonedTime) (use_local_time : Bool) : List ℤ :=
  if use_local_time then
    let ts := zts.headD ⟨0, 0⟩
    let tz_offset := (ts.utc + ts.offset) - ts.utc
    zts.map (fun z => z.utc + tz_offset)
  else zts.map ZonedTime.utc

/-- `MIN_SAMPLE_PERIOD = int(sample_period(datetime_index))` of
`_indicies_of_periods`. -/
def MIN_SAMPLE_PERIOD_of (dt : List ℤ) : ℤ := pyInt (sample_period dt)

/-- `MAX_SAMPLES_PER_PERIOD = int(_secs_per_period_alias(freq) /
MIN_SAMPLE_PERIOD)` of `_indicies_of_periods` (Python raises
`ZeroDivisionError` when the truncated sample period is 0; the theorems
below all assume it positive). -/
def MAX_SAMPLES_PER_PERIOD_of (secs_per_period : ℤ) (dt : List ℤ) : ℤ :=
  pyInt ((secs_per_period : ℚ) / (MIN_SAMPLE_PERIOD_of dt : ℚ))

/-- `MAX_SAMPLES_PER_2_PERIODS = MAX_SAMPLES_PER_PERIOD * 2` of
`_indicies_of_periods` (as the ℕ slice width). -/
def MAX_SAMPLES_PER_2_PERIODS_of (secs_per_period : ℤ) (dt : List ℤ) : ℕ :=
  (MAX_SAMPLES_PER_PERIOD_of secs_per_period dt * 2).toNat

/-- `_indicies_of_periods(datetime_index, freq, use_local_time)`.
`secs_per_period` stands for `_secs_per_period_alias(freq)`. -/
def indicies_of_periods (zts : List ZonedTime) (secs_per_period : ℤ)
    (use_local_time : Bool) : List ℤ × List (ℤ × ℕ × ℕ) :=
  let datetime_index := dt_index zts use_local_time
  let Pns := secs_per_period * NS_PER_SEC
  let periods := period_range (datetime_index.headD 0)
    (datetime_index.getLastD 0) Pns
  let MAX_SAMPLES_PER_2_PERIODS :=
    MAX_SAMPLES_PER_2_PERIODS_of secs_per_period datetime_index
  (periods, (indiciesLoop datetime_index Pns MAX_SAMPLES_PER_2_PERIODS
    periods 0 []).2)

/-- `usage_per_period(series, freq, ...)`.  The assert on
`max_dropout_rate` and an unrecognised `energy_unit` raise; otherwise one
row per generated period is produced, in period order: `(none, none)` when
the period is absent from the boundary map or has fewer samples than
`MIN_SAMPLES_PER_PERIOD`, and the `hours_on` / `energy` of the period's
sub-range otherwise.  Note `MAX_SAMPLES_PER_PERIOD` here uses the float
`sample_period(series)` (not the `int(...)` of the resolver), and the slice
`series[start_i:end_i]` is positional on the original series. -/
def usage_per_period (series : List (ZonedTime × ℚ)) (secs_per_period : ℤ)
    (on_power_threshold : ℚ) (max_dropout_rate : ℚ) (energy_unit : String)
    (max_sample_period : Option ℤ) :
    Except String (List (ℤ × Option ℚ × Option ℚ)) :=
  if ¬ (0 ≤ max_dropout_rate ∧ max_dropout_rate ≤ 1) then
    Except.error "assert 0 <= max_dropout_rate <= 1"
  else
    let pr := indicies_of_periods (series.map Prod.fst) secs_per_period true
    let MAX_SAMPLES_PER_PERIOD : ℚ :=
      (secs_per_period : ℚ) / sample_period (series.map (fun x => x.1.utc))
    let MIN_SAMPLES_PER_PERIOD := MAX_SAMPLES_PER_PERIOD * (1 - max_dropout_rate)
    pr.1.foldlM (fun rows period =>
      match pr.2.lookup period with
      | none => Except.ok (rows ++ [(period, none, none)])
      | some (s, e) =>
        let data_for_period :=
          ((series.map (fun x => (x.1.utc, x.2))).drop s).take (e - s)
        if (data_for_period.length : ℚ) < MIN_SAMPLES_PER_PERIOD then
          Except.ok (rows ++ [(period, none, none)])
        else
          match energy data_for_period max_sample_period energy_unit with
          | Except.ok en => Except.ok (rows ++ [(period,
              some (hours_on data_for_period on_power_threshold
                max_sample_period), some en)])
          | Except.error msg => Except.error msg) []

/-- The gap-capping of `hours_on` / `energy` as a function of one gap:
`td[td > max_sample_period] = max_sample_period` (the comparison is against
the raw ns value). -/
def capApply : Option ℤ → ℤ → ℤ
  | some m, d => if m < d then m else d
  | none, d => d

/-- `Tiles n bs m`: the ranges recorded in `bs` tile the index interval
`[n, m)` contiguously: each recorded range is nonempty, starts where the
previous one ended, and the last one ends at `m`. -/
inductive Tiles : ℕ → List (ℤ × ℕ × ℕ) → ℕ → Prop
  | nil (n : ℕ) : Tiles n [] n
  | cons (k : ℤ) (n e m : ℕ) (rest : List (ℤ × ℕ × ℕ)) :
      n < e → Tiles e rest m → Tiles n ((k, (n, e)) :: rest) m

/-- A concrete regular index: 0 s, 10 s, 20 s (in ns). -/
def tsA : List ℤ := [0, 10000000000, 20000000000]

/-- A concrete two-sample reading series: 7 W at t = 0 s, 0 W at
t = 1.5 s. -/
def seriesA : List (ℤ × ℚ) := [(0, 7), (1500000000, 0)]

/-- `tsA` with zero zone offsets, as tz-aware timestamps. -/
def ztsA : List ZonedTime :=
  [⟨0, 0⟩, ⟨10000000000, 0⟩, ⟨20000000000, 0⟩]

/-- A sequence (in seconds, converted to ns) whose first gaps have mode
30 s but whose tail is sampled every second: 8 samples 30 s apart and then
6 samples 1 s apart.  No gap exceeds one minute, yet with minutely
granularity the bounded window (2 x 2 samples) cannot keep up with the
dense tail. -/
def tsC : List ℤ :=
  [0, 30, 60, 90, 120, 150, 180, 210, 211, 212, 213, 214, 215, 216].map
    (fun s => s * NS_PER_SEC)

/-- `tsC` with zero zone offsets, as tz-aware timestamps. -/
def ztsC : List ZonedTime := tsC.map (fun t => ⟨t, 0⟩)

/-- A two-sample tz-aware index with a fixed UTC−4 offset (in ns):
09:00 UTC and 09:30 UTC, local clock 05:00 / 05:30. -/
def ztsB : List ZonedTime :=
  [⟨32400000000000, -14400000000000⟩, ⟨34200000000000, -14400000000000⟩]

/-! ### General lemmas about the statistical mode -/

/-- One step of the `modeOf` fold never decreases the count of the running
best, dominates the new element, and stays inside `{acc, x}`. -/
lemma modeOf_fold_invariant (l : List ℤ) :
    ∀ (p : List ℤ) (acc : ℤ),
      ((p.foldl (fun best x =>
          if l.count best < l.count x then x
          else if l.count x = l.count best ∧ x < best then x
          else best) acc) = acc ∨
        (p.foldl (fun best x =>
          if l.count best < l.count x then x
          else if l.count x = l.count best ∧ x < best then x
          else best) acc) ∈ p) ∧
      l.count acc ≤ l.count (p.foldl (fun best x =>
          if l.count best < l.count x then x
          else if l.count x = l.count best ∧ x < best then x
          else best) acc) ∧
      ∀ y ∈ p, l.count y ≤ l.count (p.foldl (fun best x =>
          if l.count best < l.count x then x
          else if l.count x = l.count best ∧ x < best then x
          else best) acc) := by
  intro p
  induction p with
  | nil => intro acc; simp
  | cons x t ih =>
    intro acc
    simp only [List.foldl_cons, List.mem_cons]
    set acc' := if l.count acc < l.count x then x
      else if l.count x = l.count acc ∧ x < acc then x
      else acc with hacc'
    have hstep : (acc' = acc ∨ acc' = x) ∧ l.count acc ≤ l.count acc' ∧
        l.count x ≤ l.count acc' := by
      rw [hacc']
      split_ifs with h1 h2
      · exact ⟨Or.inr rfl, le_of_lt h1, le_refl _⟩
      · exact ⟨Or.inr rfl, le_of_eq h2.1.symm, le_refl _⟩
      · exact ⟨Or.inl rfl, le_refl _, le_of_not_lt h1⟩
    obtain ⟨hm, hc⟩ := (ih acc')
    refine ⟨?_, ?_, ?_⟩
    · rcases hm with hm | hm
      · rw [hm]; rcases hstep.1 with h | h
        · exact Or.inl h
        · exact Or.inr (Or.inl h)
      · exact Or.inr (Or.inr hm)
    · exact le_trans hstep.2.1 hc.1
    · intro y hy
      rcases hy with hy | hy
      · subst hy; exact le_trans hstep.2.2 hc.1
      · exact hc.2 y hy

/-- The mode of a nonempty list is an element of it. -/
lemma modeOf_mem {l : List ℤ} (h : l ≠ []) : modeOf l ∈ l := by
  obtain ⟨a, t, rfl⟩ := List.exists_cons_of_ne_nil h
  unfold modeOf
  have := modeOf_fold_invariant (a :: t) (a :: t) ((a :: t).headD 0)
  rcases this.1 with h1 | h1
  · rw [h1]; simp
  · exact h1

/-- The mode has maximal multiplicity. -/
lemma modeOf_count_max {l : List ℤ} : ∀ d ∈ l, l.count d ≤ l.count (modeOf l) := by
  intro d hd
  unfold modeOf
  exact (modeOf_fold_invariant l l (l.headD 0)).2.2 d hd

/-! ### Positions of matching entries, via `enum` -/

/-- `np.where(pred(l))[0]` (the first components of the `enum`-pairs whose
value satisfies `pred`) equals the filtered position range. -/
lemma enum_filter_map_fst {α : Type} (p : α → Bool) (d : α) :
    ∀ (l : List α),
      ((l.enum.filter (fun q => p q.2)).map Prod.fst)
        = (List.range l.length).filter (fun i => p (l.getD i d)) := by
  intro l
  induction l with
  | nil => simp
  | cons a t ih =>
    rw [List.enum_cons', List.length_cons, List.range_succ_eq_map]
    have hmf : ((t.enum.map (Prod.map (· + 1) id)).filter (fun q => p q.2))
        = (t.enum.filter (fun q => p q.2)).map (Prod.map (· + 1) id) := by
      rw [List.filter_map]
      apply congrArg
      apply List.filter_congr
      intro q hq
      rcases q with ⟨i, x⟩
      rfl
    have hfst : ∀ (xs : List (ℕ × α)),
        (xs.map (Prod.map (· + 1) id)).map Prod.fst
          = (xs.map Prod.fst).map (· + 1) := by
      intro xs; simp [List.map_map]
    have htail : (((List.range t.length).filter
          (fun i => p (t.getD i d))).map (· + 1))
        = ((List.range t.length).map (· + 1)).filter
            (fun i => p ((a :: t).getD i d)) := by
      rw [List.filter_map]
      apply congrArg
      apply List.filter_congr
      intro i hi
      rfl
    by_cases hpa : p a
    · rw [List.filter_cons_of_pos (by simpa using hpa),
        List.filter_cons_of_pos (by simpa using hpa)]
      simp only [List.map_cons]
      rw [hmf, hfst, ih, htail]
    · rw [List.filter_cons_of_neg (by simpa using hpa),
        List.filter_cons_of_neg (by simpa using hpa)]
      rw [hmf, hfst, ih, htail]

/-- `getD` on `dropLast` agrees with `getD` on the list for in-range
positions. -/
lemma getD_dropLast {α : Type} (l : List α) (d : α) (i : ℕ)
    (h : i < l.length - 1) : l.dropLast.getD i d = l.getD i d := by
  have h1 : i < l.dropLast.length := by simpa [List.length_dropLast] using h
  have h2 : i < l.length := by
    have := l.length_dropLast
    omega
  rw [List.getD_eq_getElem l.dropLast d h1, List.getD_eq_getElem l d h2]
  exact List.getElem_dropLast l i h1

/-- The per-gap form of the cap branch of `hours_on` / `energy`. -/
lemma cap_match_eq (cap : Option ℤ) (td0 : List ℤ) :
    (match cap with
      | some m => td0.map (fun d => if m < d then m else d)
      | none => td0) = td0.map (capApply cap) := by
  cases cap with
  | none =>
    have h : capApply none = id := by funext d; rfl
    rw [h, List.map_id]
  | some m =>
    have h : capApply (some m) = fun d => if m < d then m else d := by
      funext d; rfl
    rw [h]

/-- A capped gap is non-negative when the gap and the cap are. -/
lemma capApply_nonneg {cap : Option ℤ} {d : ℤ} (hc : ∀ m ∈ cap, 0 ≤ m)
    (hd : 0 ≤ d) : 0 ≤ capApply cap d := by
  cases cap with
  | none => exact hd
  | some m =>
    have hm : 0 ≤ m := hc m rfl
    simp only [capApply]
    split_ifs with h
    · exact hm
    · exact hd

/-- Normal form of `hours_on`: filter the on-indices out of
`[0, length - 1)`, take the (ns-)capped forward gaps there, truncate the ns
total to whole seconds, divide by 3600. -/
lemma hours_on_normal (series : List (ℤ × ℚ)) (thr : ℚ) (cap : Option ℤ) :
    hours_on series thr cap =
      ((((((List.range (series.length - 1)).filter
          (fun i => decide (thr ≤ (series.getD i (0, 0)).2))).map
          (fun i => capApply cap ((series.getD (i + 1) (0, 0)).1
            - (series.getD i (0, 0)).1))).sum.tdiv NS_PER_SEC : ℤ) : ℚ)) / 3600 := by
  simp only [hours_on]
  rw [cap_match_eq, List.map_map]
  have he := enum_filter_map_fst (fun v : ℤ × ℚ => decide (thr ≤ v.2))
    ((0 : ℤ), (0 : ℚ)) series.dropLast
  have hee : ((series.dropLast.enum.filter
        (fun p => decide (thr ≤ p.2.2))).map Prod.fst)
      = (List.range (series.length - 1)).filter
          (fun i => decide (thr ≤ (series.dropLast.getD i (0, 0)).2)) := by
    simpa [List.length_dropLast] using he
  rw [hee]
  have hfc : (List.range (series.length - 1)).filter
        (fun i => decide (thr ≤ (series.dropLast.getD i (0, 0)).2))
      = (List.range (series.length - 1)).filter
          (fun i => decide (thr ≤ (series.getD i (0, 0)).2)) := by
    apply List.filter_congr
    intro i hi
    rw [getD_dropLast series (0, 0) i (List.mem_range.mp hi)]
  rw [hfc]
  rfl

/-! ### Sorted-scan toolkit for the period-boundary resolver -/

/-- S1 -/
lemma takeWhile_length_countP (c : ℤ) :
    ∀ (l : List ℤ), l.Pairwise (· < ·) →
      (l.takeWhile (fun t => decide (t < c))).length
        = l.countP (fun t => decide (t < c)) := by
  intro l
  induction l with
  | nil => intro _; rfl
  | cons a t ih =>
    intro hp
    have hpt : t.Pairwise (· < ·) := hp.of_cons
    have hmem : ∀ b ∈ t, a < b := fun b hb => (List.pairwise_cons.mp hp).1 b hb
    by_cases ha : a < c
    · rw [List.takeWhile_cons_of_pos (by simpa using ha),
        List.countP_cons_of_pos _ _ (by simpa using ha)]
      simp [ih hpt]
    · rw [List.takeWhile_cons_of_neg (by simpa using ha),
        List.countP_cons_of_neg _ _ (by simpa using ha)]
      have hz : t.countP (fun t => decide (t < c)) = 0 := by
        rw [List.countP_eq_zero]
        intro b hb
        have := hmem b hb
        simp only [decide_eq_true_eq]
        omega
      simp [hz]

/-- S2 -/
lemma drop_countP_eq_dropWhile (c : ℤ) (l : List ℤ) (hp : l.Pairwise (· < ·)) :
    l.drop (l.countP (fun t => decide (t < c)))
      = l.dropWhile (fun t => decide (t < c)) := by
  rw [← takeWhile_length_countP c l hp]
  nth_rewrite 2 [(List.takeWhile_append_dropWhile
    (p := fun t => decide (t < c)) (l := l)).symm]
  rw [List.drop_left]

/-- S3 -/
lemma dropWhile_not_lt (c : ℤ) :
    ∀ (l : List ℤ), l.Pairwise (· < ·) →
      ∀ x ∈ l.dropWhile (fun t => decide (t < c)), ¬ (x < c) := by
  intro l
  induction l with
  | nil => intro _ x hx; simp at hx
  | cons a t ih =>
    intro hp x hx
    have hpt : t.Pairwise (· < ·) := hp.of_cons
    have hmem : ∀ b ∈ t, a < b := fun b hb => (List.pairwise_cons.mp hp).1 b hb
    by_cases ha : a < c
    · rw [List.dropWhile_cons_of_pos (by simpa using ha)] at hx
      exact ih hpt x hx
    · rw [List.dropWhile_cons_of_neg (by simpa using ha)] at hx
      rcases List.mem_cons.mp hx with rfl | hx
      · exact ha
      · have := hmem x hx
        omega

/-- S4 -/
lemma countP_lt_split (c c' : ℤ) (hcc : c ≤ c') :
    ∀ (l : List ℤ),
      l.countP (fun t => decide (t < c'))
        = l.countP (fun t => decide (t < c))
          + l.countP (fun t => decide (c ≤ t ∧ t < c')) := by
  intro l
  induction l with
  | nil => rfl
  | cons a t ih =>
    rw [List.countP_cons, List.countP_cons, List.countP_cons, ih]
    simp only [decide_eq_true_eq]
    split_ifs <;> omega

/-- elements of a `takeWhile` prefix satisfy the predicate, so it counts
its own length -/
lemma countP_takeWhile_self (p : ℤ → Bool) (l : List ℤ) :
    (l.takeWhile p).countP p = (l.takeWhile p).length := by
  rw [List.countP_eq_length]
  intro a ha
  exact List.mem_takeWhile_imp ha

/-- S6: count of a weaker predicate on the dropWhile suffix -/
lemma countP_dropWhile_sub (c c' : ℤ) (hcc : c ≤ c') (l : List ℤ)
    (hp : l.Pairwise (· < ·)) :
    (l.dropWhile (fun t => decide (t < c))).countP (fun t => decide (t < c'))
      = l.countP (fun t => decide (t < c'))
        - l.countP (fun t => decide (t < c)) := by
  have h := List.takeWhile_append_dropWhile
    (p := fun t => decide (t < c)) (l := l)
  have h1 : l.countP (fun t => decide (t < c'))
      = (l.takeWhile (fun t => decide (t < c))).countP (fun t => decide (t < c'))
        + (l.dropWhile (fun t => decide (t < c))).countP
            (fun t => decide (t < c')) := by
    rw [← List.countP_append, h]
  have h2 : l.countP (fun t => decide (t < c))
      = (l.takeWhile (fun t => decide (t < c))).countP (fun t => decide (t < c))
        + (l.dropWhile (fun t => decide (t < c))).countP
            (fun t => decide (t < c)) := by
    rw [← List.countP_append, h]
  have htw : (l.takeWhile (fun t => decide (t < c))).countP
      (fun t => decide (t < c'))
        = (l.takeWhile (fun t => decide (t < c))).length := by
    rw [List.countP_eq_length]
    intro a ha
    have := List.mem_takeWhile_imp ha
    simp only [decide_eq_true_eq] at this ⊢
    omega
  have hdw0 : (l.dropWhile (fun t => decide (t < c))).countP
      (fun t => decide (t < c)) = 0 := by
    rw [List.countP_eq_zero]
    intro a ha
    simpa using dropWhile_not_lt c l hp a ha
  have hts := countP_takeWhile_self (fun t => decide (t < c)) l
  omega

/-- S5: if all matches fit in the first `W` elements, taking `W` keeps all
of them -/
lemma countP_take_of_fits (c : ℤ) (W : ℕ) (l : List ℤ)
    (hp : l.Pairwise (· < ·))
    (hW : l.countP (fun t => decide (t < c)) ≤ W) :
    (l.take W).countP (fun t => decide (t < c))
      = l.countP (fun t => decide (t < c)) := by
  have hlen : (l.takeWhile (fun t => decide (t < c))).length
      = l.countP (fun t => decide (t < c)) :=
    takeWhile_length_countP c l hp
  nth_rewrite 1 [(List.takeWhile_append_dropWhile
    (p := fun t => decide (t < c)) (l := l)).symm]
  rw [List.take_append_eq_append_take, List.countP_append]
  have htw : (l.takeWhile (fun t => decide (t < c))).take W
      = l.takeWhile (fun t => decide (t < c)) :=
    List.take_of_length_le (by omega)
  rw [htw]
  have hdw : ((l.dropWhile (fun t => decide (t < c))).take
      (W - (l.takeWhile (fun t => decide (t < c))).length)).countP
        (fun t => decide (t < c)) = 0 := by
    rw [List.countP_eq_zero]
    intro a ha
    have hmem := List.take_subset _ _ ha
    simpa using dropWhile_not_lt c l hp a hmem
  rw [hdw, countP_takeWhile_self, hlen]
  omega

/-- The position predicate of a sorted list is downward closed: position
`i` matches iff `i` lies below the match count. -/
lemma sorted_getD_lt_iff (c : ℤ) (l : List ℤ) (hp : l.Pairwise (· < ·))
    (i : ℕ) (hiL : i < l.length) :
    (l.getD i 0 < c) ↔ i < l.countP (fun t => decide (t < c)) := by
  have hlenTW : (l.takeWhile (fun t => decide (t < c))).length
      = l.countP (fun t => decide (t < c)) :=
    takeWhile_length_countP c l hp
  have hsp := List.takeWhile_append_dropWhile
    (p := fun t => decide (t < c)) (l := l)
  have hgd : l.getD i 0 = (l.takeWhile (fun t => decide (t < c))
      ++ l.dropWhile (fun t => decide (t < c))).getD i 0 := by
    rw [hsp]
  by_cases him : i < l.countP (fun t => decide (t < c))
  · have hitw : i < (l.takeWhile (fun t => decide (t < c))).length := by omega
    have happ : (l.takeWhile (fun t => decide (t < c))
        ++ l.dropWhile (fun t => decide (t < c))).getD i 0
          = (l.takeWhile (fun t => decide (t < c))).getD i 0 := by
      rw [List.getD_eq_getElem _ _ (by rw [List.length_append]; omega),
        List.getD_eq_getElem _ _ hitw]
      exact List.getElem_append_left hitw
    have hmem : (l.takeWhile (fun t => decide (t < c))).getD i 0
        ∈ l.takeWhile (fun t => decide (t < c)) := by
      rw [List.getD_eq_getElem _ _ hitw]
      exact List.getElem_mem hitw
    have := List.mem_takeWhile_imp hmem
    simp only [decide_eq_true_eq] at this
    constructor
    · intro _; exact him
    · intro _; rw [hgd, happ]; exact this
  · have hitw : (l.takeWhile (fun t => decide (t < c))).length ≤ i := by omega
    have hidw : i - (l.takeWhile (fun t => decide (t < c))).length
        < (l.dropWhile (fun t => decide (t < c))).length := by
      have h1 : (l.takeWhile (fun t => decide (t < c))).length
          + (l.dropWhile (fun t => decide (t < c))).length = l.length := by
        rw [← List.length_append, hsp]
      omega
    have happ : (l.takeWhile (fun t => decide (t < c))
        ++ l.dropWhile (fun t => decide (t < c))).getD i 0
          = (l.dropWhile (fun t => decide (t < c))).getD
              (i - (l.takeWhile (fun t => decide (t < c))).length) 0 := by
      rw [List.getD_eq_getElem _ _ (by rw [List.length_append]; omega),
        List.getD_eq_getElem _ _ hidw]
      exact List.getElem_append_right hitw
    have hmem : (l.dropWhile (fun t => decide (t < c))).getD
        (i - (l.takeWhile (fun t => decide (t < c))).length) 0
          ∈ l.dropWhile (fun t => decide (t < c)) := by
      rw [List.getD_eq_getElem _ _ hidw]
      exact List.getElem_mem hidw
    have hnot := dropWhile_not_lt c l hp _ hmem
    constructor
    · intro hlt
      exfalso
      rw [hgd, happ] at hlt
      exact hnot hlt
    · intro h; omega

/-- E3 -/
lemma sorted_filter_range (c : ℤ) (l : List ℤ) (hp : l.Pairwise (· < ·)) :
    (List.range l.length).filter (fun i => decide (l.getD i 0 < c))
      = List.range (l.countP (fun t => decide (t < c))) := by
  have hm : l.countP (fun t => decide (t < c)) ≤ l.length :=
    List.countP_le_length _
  set m := l.countP (fun t => decide (t < c)) with hmdef
  have h1 : l.length - m + m = l.length := by omega
  have hsplit : List.range l.length
      = List.range' 0 m ++ List.range' m (l.length - m) := by
    rw [List.range_eq_range', ← h1, ← List.range'_append_1]
    norm_num
  rw [hsplit, List.filter_append]
  have hfirst : (List.range' 0 m).filter (fun i => decide (l.getD i 0 < c))
      = List.range' 0 m := by
    rw [List.filter_eq_self]
    intro i hi
    have hb := List.mem_range'_1.mp hi
    simp only [decide_eq_true_eq]
    exact (sorted_getD_lt_iff c l hp i (by omega)).mpr (by omega)
  have hsecond : (List.range' m (l.length - m)).filter
      (fun i => decide (l.getD i 0 < c)) = [] := by
    rw [List.filter_eq_nil_iff]
    intro i hi
    have hb := List.mem_range'_1.mp hi
    simp only [decide_eq_true_eq]
    intro hlt
    have := (sorted_getD_lt_iff c l hp i (by omega)).mp hlt
    omega
  rw [hfirst, hsecond, List.append_nil, List.range_eq_range']

/-- L1: step normal form -/
lemma indiciesLoop_cons (dt : List ℤ) (Pns : ℤ) (W : ℕ) (k : ℤ) (ks : List ℤ)
    (n : ℕ) (acc : List (ℤ × ℕ × ℕ))
    (hw : ((dt.drop n).take W).Pairwise (· < ·)) :
    indiciesLoop dt Pns W (k :: ks) n acc
      = (if ((dt.drop n).take W).countP
            (fun t => decide (t < period_end_time Pns k)) = 0
         then indiciesLoop dt Pns W ks n acc
         else indiciesLoop dt Pns W ks
           (n + ((dt.drop n).take W).countP
             (fun t => decide (t < period_end_time Pns k)))
           (acc ++ [(k, (n, n + ((dt.drop n).take W).countP
             (fun t => decide (t < period_end_time Pns k))))])) := by
  set w := (dt.drop n).take W with hwdef
  set m := w.countP (fun t => decide (t < period_end_time Pns k)) with hmdef
  have hidx : ((w.enum.filter
      (fun p => decide (p.2 < period_end_time Pns k))).map Prod.fst)
        = List.range m := by
    rw [enum_filter_map_fst (fun t : ℤ => decide (t < period_end_time Pns k))
      0 w]
    rw [sorted_filter_range (period_end_time Pns k) w hw]
  show (if h : (w.enum.filter
      (fun p => decide (p.2 < period_end_time Pns k))).map Prod.fst = []
    then indiciesLoop dt Pns W ks n acc
    else
      indiciesLoop dt Pns W ks
        (n + ((((w.enum.filter (fun p =>
            decide (p.2 < period_end_time Pns k))).map Prod.fst).getLast h
              + n + 1)
          - (((w.enum.filter (fun p =>
            decide (p.2 < period_end_time Pns k))).map Prod.fst).head h + n)))
        (acc ++ [(k, ((((w.enum.filter (fun p =>
            decide (p.2 < period_end_time Pns k))).map Prod.fst).head h + n),
          (((w.enum.filter (fun p =>
            decide (p.2 < period_end_time Pns k))).map Prod.fst).getLast h
              + n + 1)))])) = _
  by_cases hm : m = 0
  · rw [dif_pos (by rw [hidx, hm]; rfl), if_pos hm]
  · have hne : ((w.enum.filter
        (fun p => decide (p.2 < period_end_time Pns k))).map Prod.fst) ≠ [] := by
      rw [hidx]
      simpa [List.range_eq_nil] using hm
    rw [dif_neg hne, if_neg hm]
    have hhead : ((w.enum.filter
        (fun p => decide (p.2 < period_end_time Pns k))).map Prod.fst).head hne
          = 0 := by
      have h0 : 0 < m := Nat.pos_of_ne_zero hm
      rw [List.head_eq_getElem]
      have hR : ∀ (xs : List ℕ) (hxs : xs = List.range m)
          (hh : 0 < xs.length), xs[0] = 0 := by
        intro xs hxs hh
        subst hxs
        simp
      exact hR _ hidx _
    have hlast : ((w.enum.filter
        (fun p => decide (p.2 < period_end_time Pns k))).map Prod.fst).getLast
          hne = m - 1 := by
      rw [List.getLast_eq_getElem]
      have hR : ∀ (xs : List ℕ) (hxs : xs = List.range m)
          (hh : xs.length - 1 < xs.length), xs[xs.length - 1] = m - 1 := by
        intro xs hxs hh
        subst hxs
        simp
      exact hR _ hidx _
    rw [hhead, hlast]
    have e1 : (0 : ℕ) + n = n := by omega
    have e2 : m - 1 + n + 1 = n + m := by omega
    have e3 : n + (n + m - n) = n + m := by omega
    rw [e1, e2, e3]

/-- L4 -/
lemma Tiles.le {n m : ℕ} {tl : List (ℤ × ℕ × ℕ)} (h : Tiles n tl m) :
    n ≤ m := by
  induction h with
  | nil => exact le_refl _
  | cons k n e m rest hlt _ ih => omega

/-- L5 -/
lemma Tiles.bounds {n m : ℕ} {tl : List (ℤ × ℕ × ℕ)} (h : Tiles n tl m) :
    ∀ b ∈ tl, n ≤ b.2.1 ∧ b.2.1 < b.2.2 ∧ b.2.2 ≤ m := by
  induction h with
  | nil => intro b hb; simp at hb
  | cons k n e m rest hlt hrest ih =>
    intro b hb
    rcases List.mem_cons.mp hb with rfl | hb
    · exact ⟨le_refl _, hlt, hrest.le⟩
    · have := ih b hb
      omega

/-- L6 -/
lemma Tiles.pairwise {n m : ℕ} {tl : List (ℤ × ℕ × ℕ)} (h : Tiles n tl m) :
    tl.Pairwise (fun b1 b2 => b1.2.2 ≤ b2.2.1) := by
  induction h with
  | nil => exact List.Pairwise.nil
  | cons k n e m rest hlt hrest ih =>
    refine List.Pairwise.cons ?_ ih
    intro b hb
    exact (hrest.bounds b hb).1

/-- L3 -/
lemma Tiles.final_eq {n m : ℕ} {tl : List (ℤ × ℕ × ℕ)} (h : Tiles n tl m) :
    m = ((tl.getLast?).map (fun b => b.2.2)).getD n := by
  induction h with
  | nil => rfl
  | cons k n e m rest hlt hrest ih =>
    cases rest with
    | nil =>
      cases hrest
      rfl
    | cons b rest' =>
      rw [List.getLast?_cons_cons]
      rw [ih]
      rfl

/-- head start -/
lemma Tiles.head_start {n m : ℕ} {tl : List (ℤ × ℕ × ℕ)} (h : Tiles n tl m) :
    ∀ b, tl.head? = some b → b.2.1 = n := by
  cases h with
  | nil => intro b hb; simp at hb
  | cons k n e m rest hlt hrest =>
    intro b hb
    simp only [List.head?_cons, Option.some.injEq] at hb
    rw [← hb]

/-- L7 -/
lemma Tiles.adjacent {n m : ℕ} {tl : List (ℤ × ℕ × ℕ)} (h : Tiles n tl m) :
    ∀ (i : ℕ) (b1 b2 : ℤ × ℕ × ℕ), tl[i]? = some b1 → tl[i+1]? = some b2 →
      b2.2.1 = b1.2.2 := by
  induction h with
  | nil => intro i b1 b2 hb1 hb2; simp at hb1
  | cons k n e m rest hlt hrest ih =>
    intro i b1 b2 hb1 hb2
    cases i with
    | zero =>
      simp only [List.getElem?_cons_zero, Option.some.injEq] at hb1
      rw [List.getElem?_cons_succ] at hb2
      have hb2' : rest.head? = some b2 := by
        cases rest with
        | nil => simp at hb2
        | cons r rs =>
          simp only [List.getElem?_cons_zero, Option.some.injEq] at hb2
          simp [hb2]
      have := hrest.head_start b2 hb2'
      rw [this, ← hb1]
    | succ j =>
      rw [List.getElem?_cons_succ] at hb1
      rw [List.getElem?_cons_succ] at hb2
      exact ih j b1 b2 hb1 hb2

/-- L8 -/
lemma Tiles.coverage {n m : ℕ} {tl : List (ℤ × ℕ × ℕ)} (h : Tiles n tl m) :
    ∀ j : ℕ, (n ≤ j ∧ j < m) ↔ ∃ b ∈ tl, b.2.1 ≤ j ∧ j < b.2.2 := by
  induction h with
  | nil =>
    intro j
    constructor
    · intro hj; omega
    · intro hj; simp at hj
  | cons k n e m rest hlt hrest ih =>
    intro j
    constructor
    · intro hj
      by_cases hje : j < e
      · exact ⟨(k, (n, e)), List.mem_cons_self _ _, hj.1, hje⟩
      · obtain ⟨b, hb, hbj⟩ := (ih j).mp ⟨by omega, hj.2⟩
        exact ⟨b, List.mem_cons_of_mem _ hb, hbj⟩
    · intro ⟨b, hb, hbj⟩
      rcases List.mem_cons.mp hb with rfl | hb
      · have := hrest.le
        simp only at hbj
        omega
      · have h1 := (ih j).mpr ⟨b, hb, hbj⟩
        omega

/-- L9 -/
lemma Tiles.unique {n m : ℕ} {tl : List (ℤ × ℕ × ℕ)} (h : Tiles n tl m) :
    ∀ (j : ℕ) (b1 b2 : ℤ × ℕ × ℕ), b1 ∈ tl → b2 ∈ tl →
      b1.2.1 ≤ j → j < b1.2.2 → b2.2.1 ≤ j → j < b2.2.2 → b1 = b2 := by
  induction h with
  | nil => intro j b1 b2 hb1; simp at hb1
  | cons k n e m rest hlt hrest ih =>
    intro j b1 b2 hb1 hb2 h11 h12 h21 h22
    rcases List.mem_cons.mp hb1 with rfl | hb1 <;>
      rcases List.mem_cons.mp hb2 with rfl | hb2
    · rfl
    · have := hrest.bounds b2 hb2
      simp only at h12
      omega
    · have := hrest.bounds b1 hb1
      simp only at h22
      omega
    · exact ih j b1 b2 hb1 hb2 h11 h12 h21 h22

/-- windows inherit sortedness -/
lemma window_pairwise {dt : List ℤ} (hs : dt.Pairwise (· < ·)) (n W : ℕ) :
    ((dt.drop n).take W).Pairwise (· < ·) :=
  hs.sublist ((List.take_sublist _ _).trans (List.drop_sublist _ _))

/-- L2 -/
lemma indiciesLoop_tiles (dt : List ℤ) (Pns : ℤ) (W : ℕ)
    (hs : dt.Pairwise (· < ·)) :
    ∀ (ks : List ℤ) (n : ℕ) (acc : List (ℤ × ℕ × ℕ)),
      ∃ tl, (indiciesLoop dt Pns W ks n acc).2 = acc ++ tl
        ∧ Tiles n tl (indiciesLoop dt Pns W ks n acc).1 := by
  intro ks
  induction ks with
  | nil =>
    intro n acc
    exact ⟨[], by simp [indiciesLoop], Tiles.nil n⟩
  | cons k ks ih =>
    intro n acc
    rw [indiciesLoop_cons dt Pns W k ks n acc (window_pairwise hs n W)]
    by_cases hm : ((dt.drop n).take W).countP
        (fun t => decide (t < period_end_time Pns k)) = 0
    · rw [if_pos hm]
      exact ih n acc
    · rw [if_neg hm]
      obtain ⟨tl, htl, htiles⟩ := ih (n + ((dt.drop n).take W).countP
        (fun t => decide (t < period_end_time Pns k)))
        (acc ++ [(k, (n, n + ((dt.drop n).take W).countP
          (fun t => decide (t < period_end_time Pns k))))])
      refine ⟨(k, (n, n + ((dt.drop n).take W).countP
        (fun t => decide (t < period_end_time Pns k)))) :: tl, ?_, ?_⟩
      · rw [htl]
        simp
      · exact Tiles.cons k n _ _ tl (by omega) htiles

/-- L10 -/
lemma indiciesLoop_append (dt : List ℤ) (Pns : ℤ) (W : ℕ) :
    ∀ (l1 l2 : List ℤ) (n : ℕ) (acc : List (ℤ × ℕ × ℕ)),
      indiciesLoop dt Pns W (l1 ++ l2) n acc
        = indiciesLoop dt Pns W l2 (indiciesLoop dt Pns W l1 n acc).1
            (indiciesLoop dt Pns W l1 n acc).2 := by
  intro l1
  induction l1 with
  | nil => intro l2 n acc; rfl
  | cons k l1 ih =>
    intro l2 n acc
    rw [List.cons_append]
    show indiciesLoop dt Pns W (k :: (l1 ++ l2)) n acc = _
    simp only [indiciesLoop]
    split
    · exact ih l2 n acc
    · exact ih l2 _ _

/-- L0 -/
lemma indiciesLoop_fst_acc (dt : List ℤ) (Pns : ℤ) (W : ℕ) :
    ∀ (ks : List ℤ) (n : ℕ) (acc acc' : List (ℤ × ℕ × ℕ)),
      (indiciesLoop dt Pns W ks n acc).1
        = (indiciesLoop dt Pns W ks n acc').1 := by
  intro ks
  induction ks with
  | nil => intro n acc acc'; rfl
  | cons k ks ih =>
    intro n acc acc'
    simp only [indiciesLoop]
    split
    · exact ih n acc acc'
    · exact ih _ _ _

/-- monotone period ends -/
lemma period_end_time_mono (Pns : ℤ) (hP : 1 ≤ Pns) {a b : ℤ} (hab : a ≤ b) :
    period_end_time Pns a ≤ period_end_time Pns b := by
  unfold period_end_time
  nlinarith [mul_nonneg (sub_nonneg.mpr hab) (by omega : (0 : ℤ) ≤ Pns)]

/-- L11: the scan state after processing the consecutive periods
`k0, …, k0+L-1` is the number of samples strictly before the last processed
period's end instant, provided every period's fresh matches fit in the
window. -/
lemma indiciesLoop_union (dt : List ℤ) (Pns : ℤ) (W : ℕ)
    (hs : dt.Pairwise (· < ·)) (hP : 1 ≤ Pns) :
    ∀ (L : ℕ) (k0 : ℤ) (n : ℕ) (acc : List (ℤ × ℕ × ℕ)),
      n = dt.countP (fun t => decide (t < period_end_time Pns (k0 - 1))) →
      (∀ i : ℕ, i < L →
        dt.countP (fun t => decide (period_end_time Pns (k0 + (i : ℤ) - 1) ≤ t
          ∧ t < period_end_time Pns (k0 + (i : ℤ)))) ≤ W) →
      (indiciesLoop dt Pns W ((List.range L).map (fun i : ℕ => k0 + (i : ℤ)))
          n acc).1
        = dt.countP (fun t => decide (t < period_end_time Pns
            (k0 + (L : ℤ) - 1))) := by
  intro L
  induction L with
  | zero =>
    intro k0 n acc hn hfit
    simpa using hn
  | succ L ih =>
    intro k0 n acc hn hfit
    have hlist : (List.range (L + 1)).map (fun i : ℕ => k0 + (i : ℤ))
        = k0 :: (List.range L).map (fun i : ℕ => (k0 + 1) + (i : ℤ)) := by
      rw [List.range_succ_eq_map, List.map_cons, List.map_map]
      congr 1
      · simp
      · apply List.map_congr_left
        intro i hi
        simp only [Function.comp_apply]
        push_cast
        ring
    rw [hlist, indiciesLoop_cons dt Pns W k0 _ n acc (window_pairwise hs n W)]
    have hcc : period_end_time Pns (k0 - 1) ≤ period_end_time Pns k0 :=
      period_end_time_mono Pns hP (by omega)
    have hsplit := countP_lt_split (period_end_time Pns (k0 - 1))
      (period_end_time Pns k0) hcc dt
    have hfit0 := hfit 0 (by omega)
    rw [show k0 + ((0 : ℕ) : ℤ) - 1 = k0 - 1 by push_cast; ring,
      show k0 + ((0 : ℕ) : ℤ) = k0 by push_cast; ring] at hfit0
    have hrle : dt.countP (fun t => decide (t < period_end_time Pns k0)) - n
        ≤ W := by
      omega
    have hnle : n ≤ dt.countP (fun t => decide (t < period_end_time Pns k0)) := by
      omega
    have hdsort : (dt.drop n).Pairwise (· < ·) :=
      hs.sublist (List.drop_sublist _ _)
    have hdw : (dt.drop n).countP (fun t => decide (t < period_end_time Pns k0))
        = dt.countP (fun t => decide (t < period_end_time Pns k0)) - n := by
      rw [hn, drop_countP_eq_dropWhile (period_end_time Pns (k0 - 1)) dt hs]
      exact countP_dropWhile_sub _ _ hcc dt hs
    have hwcount : ((dt.drop n).take W).countP
        (fun t => decide (t < period_end_time Pns k0))
          = dt.countP (fun t => decide (t < period_end_time Pns k0)) - n := by
      rw [countP_take_of_fits _ W (dt.drop n) hdsort (by omega), hdw]
    have hfit' : ∀ i : ℕ, i < L →
        dt.countP (fun t => decide
          (period_end_time Pns ((k0 + 1) + (i : ℤ) - 1) ≤ t
            ∧ t < period_end_time Pns ((k0 + 1) + (i : ℤ)))) ≤ W := by
      intro i hi
      have h := hfit (i + 1) (by omega)
      rw [show k0 + ((i + 1 : ℕ) : ℤ) - 1 = (k0 + 1) + (i : ℤ) - 1 by
          push_cast; ring,
        show k0 + ((i + 1 : ℕ) : ℤ) = (k0 + 1) + (i : ℤ) by push_cast; ring]
        at h
      exact h
    have hk1 : k0 + 1 - 1 = k0 := by ring
    have hfin : ∀ nn : ℕ,
        nn = dt.countP (fun t => decide (t < period_end_time Pns k0)) →
        ∀ aa, (indiciesLoop dt Pns W
            ((List.range L).map (fun i : ℕ => (k0 + 1) + (i : ℤ))) nn aa).1
          = dt.countP (fun t => decide (t < period_end_time Pns
              (k0 + ((L + 1 : ℕ) : ℤ) - 1))) := by
      intro nn hnn aa
      have h := ih (k0 + 1) nn aa (by rw [hnn, hk1]) hfit'
      rw [h, show k0 + 1 + (L : ℤ) - 1 = k0 + ((L + 1 : ℕ) : ℤ) - 1 by
        push_cast; ring]
    by_cases hm : ((dt.drop n).take W).countP
        (fun t => decide (t < period_end_time Pns k0)) = 0
    · rw [if_pos hm]
      exact hfin n (by omega) acc
    · rw [if_neg hm]
      exact hfin _ (by omega) _

/-! ### Claims about the point statistics -/

/-- C8: `energy` succeeds exactly on the units `'kwh'` and `'joules'` and
raises (`ValueError`) exactly on every other unit string. -/
theorem energy_unit_error_iff :
    ∀ (series : List (ℤ × ℚ)) (cap : Option ℤ) (unit : String),
      ((∃ q, energy series cap unit = Except.ok q)
          ↔ (unit = "kwh" ∨ unit = "joules"))
      ∧ ((∃ msg, energy series cap unit = Except.error msg)
          ↔ ¬ (unit = "kwh" ∨ unit = "joules")) := by
  intro s c u
  by_cases h1 : u = "kwh"
  · subst h1
    simp [energy]
  · by_cases h2 : u = "joules"
    · subst h2
      simp [energy]
    · simp [energy, h1, h2]

/-- C3 counterexample: with a 1.5-second gap and an on sample, the code
returns `1/3600` hours (the 1.5 s on-total is truncated to 1 s), not the
`1.5/3600 = 1/2400` hours that the claim's un-truncated sum gives. -/
theorem hours_on_subsecond_cex :
    hours_on [((0 : ℤ), (100 : ℚ)), ((1500000000 : ℤ), (100 : ℚ))] 5 none
        = 1 / 3600
      ∧ ((1 : ℚ) / 3600) ≠ 1 / 2400 := by
  constructor
  · rfl
  · norm_num

/-- C3 (amended): `hours_on` sums, over every index `i` except the last
whose reading is at or above the threshold, the ns gap to the next sample
— each gap capped at `max_sample_period` interpreted in raw ns units when
provided (the docstring says seconds; see the C4 record) — truncates the
total to a whole number of seconds, and divides by 3600. -/
theorem hours_on_truncated_formula (series : List (ℤ × ℚ)) (thr : ℚ)
    (cap : Option ℤ) :
    hours_on series thr cap =
      ((((((List.range (series.length - 1)).filter
          (fun i => decide (thr ≤ (series.getD i (0, 0)).2))).map
          (fun i => capApply cap ((series.getD (i + 1) (0, 0)).1
            - (series.getD i (0, 0)).1))).sum.tdiv NS_PER_SEC : ℤ) : ℚ)) / 3600 :=
  hours_on_normal series thr cap

/-- C4: the cap is applied in nanoseconds, contradicting the docstring's
seconds.  With samples 10 s apart (gap `10^10` ns) and
`max_sample_period = 20` (seconds, per the documentation), the claim says no
capping happens and 1000 J are returned; the code caps the gap at 20 ns and
returns `100 * 20e-9 = 1/500000` J. -/
theorem energy_cap_ns_eval :
    energy [((0 : ℤ), (100 : ℚ)), ((10000000000 : ℤ), (100 : ℚ))]
        (some 20) "joules" = Except.ok (1 / 500000)
      ∧ ((1 : ℚ) / 500000) ≠ 1000 := by
  constructor
  · norm_num [energy, fwdDiff, NS_PER_SEC]
    decide
  · norm_num

/-- C5: `dropout_rate` is exactly `1 - count / expected`, with
`expected = duration-in-seconds / estimated-sample-period` (stated both
literally and in cleared-denominator form), and it can be negative on an
oversampled series. -/
theorem dropout_rate_formula (ts : List ℤ) (h2 : 2 ≤ ts.length)
    (hsp : sample_period ts ≠ 0) (hdur : ts.headD 0 < ts.getLastD 0) :
    (dropout_rate ts = 1 - (ts.length : ℚ) /
        ((((ts.getLastD 0 - ts.headD 0 : ℤ) : ℚ) / (NS_PER_SEC : ℚ))
          / sample_period ts))
    ∧ (dropout_rate ts = 1 -
        ((ts.length : ℚ) * sample_period ts * (NS_PER_SEC : ℚ)) /
          (((ts.getLastD 0 - ts.headD 0 : ℤ) : ℚ)))
    ∧ dropout_rate ([0, 10, 20, 30, 31, 32].map (fun s => s * NS_PER_SEC))
        < 0 := by
  refine ⟨rfl, ?_, by
    norm_num [dropout_rate, sample_period, modeOf, fwdDiff, NS_PER_SEC,
      List.count]⟩
  have hD : (((ts.getLastD 0 - ts.headD 0 : ℤ) : ℚ)) ≠ 0 := by
    have : (0 : ℤ) < ts.getLastD 0 - ts.headD 0 := by omega
    exact_mod_cast ne_of_gt (by exact_mod_cast this)
  have hNS : ((NS_PER_SEC : ℤ) : ℚ) ≠ 0 := by norm_num [NS_PER_SEC]
  unfold dropout_rate
  field_simp
  ring

/-- Witness for the C5 theorem at the concrete index `tsA`. -/
theorem dropout_rate_formula_witness :
    (2 ≤ tsA.length ∧ sample_period tsA ≠ 0 ∧ tsA.headD 0 < tsA.getLastD 0)
    ∧ ((dropout_rate tsA = 1 - (tsA.length : ℚ) /
        ((((tsA.getLastD 0 - tsA.headD 0 : ℤ) : ℚ) / (NS_PER_SEC : ℚ))
          / sample_period tsA))
    ∧ (dropout_rate tsA = 1 -
        ((tsA.length : ℚ) * sample_period tsA * (NS_PER_SEC : ℚ)) /
          (((tsA.getLastD 0 - tsA.headD 0 : ℤ) : ℚ)))
    ∧ dropout_rate ([0, 10, 20, 30, 31, 32].map (fun s => s * NS_PER_SEC))
        < 0) :=
  ⟨⟨by norm_num [tsA],
    by norm_num [tsA, sample_period, modeOf, fwdDiff, NS_PER_SEC, List.count],
    by norm_num [tsA]⟩,
   dropout_rate_formula tsA (by norm_num [tsA])
    (by norm_num [tsA, sample_period, modeOf, fwdDiff, NS_PER_SEC, List.count])
    (by norm_num [tsA])⟩

/-- C6: `sample_period` returns the statistical mode (most frequent value,
in seconds) of the forward differences of at most the first 100 timestamps;
when all those differences equal `g` seconds it returns `g`. -/
theorem sample_period_mode_spec (ts : List ℤ) (h2 : 2 ≤ ts.length) :
    (∃ m : ℤ, sample_period ts = (m : ℚ) / (NS_PER_SEC : ℚ)
      ∧ m ∈ fwdDiff (ts.take 100)
      ∧ ∀ d ∈ fwdDiff (ts.take 100),
          (fwdDiff (ts.take 100)).count d ≤ (fwdDiff (ts.take 100)).count m)
    ∧ ∀ g : ℤ, (∀ d ∈ fwdDiff (ts.take 100), d = g * NS_PER_SEC) →
        sample_period ts = (g : ℚ) := by
  have hlen : (fwdDiff (ts.take 100)).length = (ts.take 100).length - 1 := by
    unfold fwdDiff
    rw [List.length_zipWith, List.length_tail]
    omega
  have hne : fwdDiff (ts.take 100) ≠ [] := by
    have htl : (ts.take 100).length = min 100 ts.length :=
      List.length_take 100 ts
    have : (fwdDiff (ts.take 100)).length ≠ 0 := by
      rw [hlen, htl]; omega
    exact fun hcon => this (by rw [hcon]; rfl)
  constructor
  · refine ⟨modeOf (fwdDiff (ts.take 100)), rfl, modeOf_mem hne, ?_⟩
    exact modeOf_count_max
  · intro g hg
    have hm : modeOf (fwdDiff (ts.take 100)) = g * NS_PER_SEC :=
      hg _ (modeOf_mem hne)
    unfold sample_period
    rw [hm]
    have hNS : ((NS_PER_SEC : ℤ) : ℚ) ≠ 0 := by norm_num [NS_PER_SEC]
    push_cast
    field_simp

/-- Witness for the C6 theorem at the concrete index `tsA`. -/
theorem sample_period_mode_spec_witness :
    2 ≤ tsA.length
    ∧ ((∃ m : ℤ, sample_period tsA = (m : ℚ) / (NS_PER_SEC : ℚ)
      ∧ m ∈ fwdDiff (tsA.take 100)
      ∧ ∀ d ∈ fwdDiff (tsA.take 100),
          (fwdDiff (tsA.take 100)).count d ≤ (fwdDiff (tsA.take 100)).count m)
    ∧ ∀ g : ℤ, (∀ d ∈ fwdDiff (tsA.take 100), d = g * NS_PER_SEC) →
        sample_period tsA = (g : ℚ)) :=
  ⟨by norm_num [tsA], sample_period_mode_spec tsA (by norm_num [tsA])⟩

/-- C9: with strictly increasing timestamps and a non-negative cap, the
value of `hours_on` is `k/3600` for a natural number `k`: the on-total is
truncated to whole non-negative seconds before the division by 3600. -/
theorem hours_on_whole_seconds (series : List (ℤ × ℚ)) (thr : ℚ)
    (cap : Option ℤ) (hs : (series.map Prod.fst).Pairwise (· < ·))
    (hc : ∀ m ∈ cap, 0 ≤ m) :
    ∃ k : ℕ, hours_on series thr cap = (k : ℚ) / 3600 := by
  rw [hours_on_normal]
  set td := (((List.range (series.length - 1)).filter
      (fun i => decide (thr ≤ (series.getD i (0, 0)).2))).map
      (fun i => capApply cap ((series.getD (i + 1) (0, 0)).1
        - (series.getD i (0, 0)).1))) with htd
  have hsum : 0 ≤ td.sum := by
    apply List.sum_nonneg
    intro x hx
    rw [htd] at hx
    obtain ⟨i, hi, rfl⟩ := List.mem_map.mp hx
    have hir : i ∈ List.range (series.length - 1) := List.mem_of_mem_filter hi
    have hilt : i < series.length - 1 := List.mem_range.mp hir
    have hi1 : i + 1 < series.length := by omega
    have hi0 : i < series.length := by omega
    have hgap : (series.getD i (0, 0)).1 < (series.getD (i + 1) (0, 0)).1 := by
      have hp := (List.pairwise_iff_getElem.mp hs) i (i + 1)
        (by simpa using hi0) (by simpa using hi1) (by omega)
      rw [List.getElem_map, List.getElem_map] at hp
      rw [List.getD_eq_getElem series (0, 0) hi0,
        List.getD_eq_getElem series (0, 0) hi1]
      exact hp
    exact capApply_nonneg hc (le_of_lt (sub_pos.mpr hgap))
  have hdiv : 0 ≤ Int.tdiv td.sum NS_PER_SEC :=
    Int.tdiv_nonneg hsum (by norm_num [NS_PER_SEC])
  refine ⟨(Int.tdiv td.sum NS_PER_SEC).toNat, ?_⟩
  have hcast : (((td.sum.tdiv NS_PER_SEC).toNat : ℕ) : ℚ)
      = ((td.sum.tdiv NS_PER_SEC : ℤ) : ℚ) := by
    exact_mod_cast congrArg (fun z : ℤ => (z : ℚ)) (Int.toNat_of_nonneg hdiv)
  rw [hcast]

/-- Witness for the C9 theorem at the concrete series `seriesA` with a cap
of 2. -/
theorem hours_on_whole_seconds_witness :
    ((seriesA.map Prod.fst).Pairwise (· < ·)
      ∧ ∀ m ∈ (some 2 : Option ℤ), 0 ≤ m)
    ∧ ∃ k : ℕ, hours_on seriesA 5 (some 2) = (k : ℚ) / 3600 :=
  ⟨⟨by norm_num [seriesA], by simp⟩,
   hours_on_whole_seconds seriesA 5 (some 2) (by norm_num [seriesA])
    (by simp)⟩

/-! ### Claims about the period-boundary resolver -/

/-- The boundary list of `indicies_of_periods` is the (plain) tail produced
by the scanning loop, and it tiles `[0, final scan state)`. -/
lemma indicies_of_periods_tiles (zts : List ZonedTime) (secs : ℤ) (b : Bool)
    (hs : (dt_index zts b).Pairwise (· < ·)) :
    Tiles 0 (indicies_of_periods zts secs b).2
      (indiciesLoop (dt_index zts b) (secs * NS_PER_SEC)
        (MAX_SAMPLES_PER_2_PERIODS_of secs (dt_index zts b))
        (period_range ((dt_index zts b).headD 0)
          ((dt_index zts b).getLastD 0) (secs * NS_PER_SEC)) 0 []).1 := by
  obtain ⟨tl, htl, htiles⟩ := indiciesLoop_tiles (dt_index zts b)
    (secs * NS_PER_SEC) (MAX_SAMPLES_PER_2_PERIODS_of secs (dt_index zts b)) hs
    (period_range ((dt_index zts b).headD 0)
      ((dt_index zts b).getLastD 0) (secs * NS_PER_SEC)) 0 []
  have hbs : (indicies_of_periods zts secs b).2
      = (indiciesLoop (dt_index zts b) (secs * NS_PER_SEC)
          (MAX_SAMPLES_PER_2_PERIODS_of secs (dt_index zts b))
          (period_range ((dt_index zts b).headD 0)
            ((dt_index zts b).getLastD 0) (secs * NS_PER_SEC)) 0 []).2 := rfl
  rw [hbs, htl, List.nil_append]
  exact htiles

/-- C10: in the boundary map, each present range starts exactly where the
previous present range ended (absent periods do not advance the scan), and
every sample index from the first present range's start to the last present
range's end belongs to exactly one recorded range. -/
theorem period_ranges_contiguous (zts : List ZonedTime) (secs : ℤ) (b : Bool)
    (hs : (dt_index zts b).Pairwise (· < ·)) :
    (∀ (i : ℕ) (b1 b2 : ℤ × ℕ × ℕ),
        ((indicies_of_periods zts secs b).2)[i]? = some b1 →
        ((indicies_of_periods zts secs b).2)[i + 1]? = some b2 →
        b2.2.1 = b1.2.2)
    ∧ (∀ (j : ℕ) (bh bl : ℤ × ℕ × ℕ),
        ((indicies_of_periods zts secs b).2).head? = some bh →
        ((indicies_of_periods zts secs b).2).getLast? = some bl →
        bh.2.1 ≤ j → j < bl.2.2 →
        ∃! p : ℤ × ℕ × ℕ, p ∈ (indicies_of_periods zts secs b).2
          ∧ p.2.1 ≤ j ∧ j < p.2.2) := by
  have htiles := indicies_of_periods_tiles zts secs b hs
  constructor
  · intro i b1 b2 h1 h2
    exact htiles.adjacent i b1 b2 h1 h2
  · intro j bh bl hh hl hhj hjl
    have hstart : bh.2.1 = 0 := htiles.head_start bh hh
    have hend := htiles.final_eq
    rw [hl] at hend
    simp only [Option.map_some', Option.getD_some] at hend
    obtain ⟨p, hp, hpj⟩ := (htiles.coverage j).mp ⟨by omega, by omega⟩
    refine ⟨p, ⟨hp, hpj⟩, ?_⟩
    intro q hq
    exact htiles.unique j q p hq.1 hp hq.2.1 hq.2.2 hpj.1 hpj.2

/-- Witness for the C10 theorem at the concrete index `ztsA` with minutely
granularity. -/
theorem period_ranges_contiguous_witness :
    (dt_index ztsA false).Pairwise (· < ·)
    ∧ ((∀ (i : ℕ) (b1 b2 : ℤ × ℕ × ℕ),
        ((indicies_of_periods ztsA 60 false).2)[i]? = some b1 →
        ((indicies_of_periods ztsA 60 false).2)[i + 1]? = some b2 →
        b2.2.1 = b1.2.2)
    ∧ (∀ (j : ℕ) (bh bl : ℤ × ℕ × ℕ),
        ((indicies_of_periods ztsA 60 false).2).head? = some bh →
        ((indicies_of_periods ztsA 60 false).2).getLast? = some bl →
        bh.2.1 ≤ j → j < bl.2.2 →
        ∃! p : ℤ × ℕ × ℕ, p ∈ (indicies_of_periods ztsA 60 false).2
          ∧ p.2.1 ≤ j ∧ j < p.2.2)) :=
  ⟨by decide, period_ranges_contiguous ztsA 60 false (by decide)⟩

/-- The first element of a sorted list is a lower bound. -/
lemma sorted_headD_le {l : List ℤ} (hp : l.Pairwise (· < ·)) :
    ∀ t ∈ l, l.headD 0 ≤ t := by
  cases l with
  | nil => intro t ht; simp at ht
  | cons a r =>
    intro t ht
    rcases List.mem_cons.mp ht with rfl | ht
    · exact le_refl _
    · exact le_of_lt ((List.pairwise_cons.mp hp).1 t ht)

/-- The last element of a sorted list is an upper bound. -/
lemma sorted_le_getLastD {l : List ℤ} (hp : l.Pairwise (· < ·)) :
    ∀ t ∈ l, t ≤ l.getLastD 0 := by
  induction l with
  | nil => intro t ht; simp at ht
  | cons a r ih =>
    intro t ht
    cases r with
    | nil =>
      rcases List.mem_cons.mp ht with rfl | ht
      · exact le_refl _
      · simp at ht
    | cons b rr =>
      have hgl : (a :: b :: rr).getLastD 0 = (b :: rr).getLastD 0 := by
        rw [List.getLastD_eq_getLast?, List.getLastD_eq_getLast?,
          List.getLast?_cons_cons]
      rcases List.mem_cons.mp ht with rfl | ht
      · have hmem : (b :: rr).getLastD 0 ∈ (b :: rr) := by
          have h2 : (b :: rr).getLastD 0
              = (b :: rr).getLast (List.cons_ne_nil _ _) := by
            rw [List.getLastD_eq_getLast?,
              List.getLast?_eq_getLast _ (List.cons_ne_nil _ _)]
            rfl
          rw [h2]
          exact List.getLast_mem _
        rw [hgl]
        exact le_of_lt ((List.pairwise_cons.mp hp).1 _ hmem)
      · rw [hgl]
        exact ih (List.pairwise_cons.mp hp).2 t ht

/-- A nonempty list contains its `headD`. -/
lemma headD_mem {l : List ℤ} (h : l ≠ []) : l.headD 0 ∈ l := by
  cases l with
  | nil => exact absurd rfl h
  | cons a r => exact List.mem_cons_self a r

/-- The union clause of the boundary scan: when every period's fresh
matches fit inside the bounded window and the last timestamp lies strictly
before the last period's end instant, the recorded ranges cover exactly
`[0, length)`. -/
lemma resolver_union (dt : List ℤ) (Pns : ℤ) (W : ℕ)
    (hs : dt.Pairwise (· < ·)) (hne : dt ≠ []) (hP : 1 ≤ Pns)
    (hfit : ∀ k ∈ period_range (dt.headD 0) (dt.getLastD 0) Pns,
      dt.countP (fun t => decide (period_end_time Pns (k - 1) ≤ t
        ∧ t < period_end_time Pns k)) ≤ W)
    (hlast : dt.getLastD 0
      < period_end_time Pns (Int.fdiv (dt.getLastD 0) Pns)) :
    ∀ j : ℕ, j < dt.length ↔
      ∃ p ∈ (indiciesLoop dt Pns W
        (period_range (dt.headD 0) (dt.getLastD 0) Pns) 0 []).2,
        p.2.1 ≤ j ∧ j < p.2.2 := by
  intro j
  have hdmem : dt.headD 0 ∈ dt := headD_mem hne
  have hk01 : Int.fdiv (dt.headD 0) Pns ≤ Int.fdiv (dt.getLastD 0) Pns := by
    have hle : dt.headD 0 ≤ dt.getLastD 0 := sorted_le_getLastD hs _ hdmem
    rw [Int.fdiv_eq_ediv _ (by omega), Int.fdiv_eq_ediv _ (by omega)]
    exact Int.ediv_le_ediv (by omega) hle
  have hL : (((Int.fdiv (dt.getLastD 0) Pns)
        - (Int.fdiv (dt.headD 0) Pns) + 1).toNat : ℤ)
      = Int.fdiv (dt.getLastD 0) Pns - Int.fdiv (dt.headD 0) Pns + 1 :=
    Int.toNat_of_nonneg (by omega)
  have hpr : period_range (dt.headD 0) (dt.getLastD 0) Pns
      = (List.range ((Int.fdiv (dt.getLastD 0) Pns)
          - (Int.fdiv (dt.headD 0) Pns) + 1).toNat).map
          (fun i : ℕ => Int.fdiv (dt.headD 0) Pns + (i : ℤ)) := rfl
  have hn0 : (0 : ℕ) = dt.countP (fun t =>
      decide (t < period_end_time Pns (Int.fdiv (dt.headD 0) Pns - 1))) := by
    symm
    rw [List.countP_eq_zero]
    intro t ht
    have h1 : dt.headD 0 ≤ t := sorted_headD_le hs t ht
    have h2 : Pns * Int.fdiv (dt.headD 0) Pns ≤ dt.headD 0 := by
      rw [Int.fdiv_eq_ediv _ (by omega)]
      have h3 := Int.ediv_add_emod (dt.headD 0) Pns
      have h4 := Int.emod_nonneg (dt.headD 0) (by omega : Pns ≠ 0)
      omega
    simp only [decide_eq_true_eq]
    unfold period_end_time
    have h5 : (Int.fdiv (dt.headD 0) Pns - 1 + 1) * Pns
        = Pns * Int.fdiv (dt.headD 0) Pns := by ring
    omega
  have hfit' : ∀ i : ℕ,
      i < ((Int.fdiv (dt.getLastD 0) Pns)
        - (Int.fdiv (dt.headD 0) Pns) + 1).toNat →
      dt.countP (fun t =>
        decide (period_end_time Pns (Int.fdiv (dt.headD 0) Pns + (i : ℤ) - 1)
          ≤ t ∧ t < period_end_time Pns
            (Int.fdiv (dt.headD 0) Pns + (i : ℤ)))) ≤ W := by
    intro i hi
    apply hfit
    rw [hpr]
    exact List.mem_map.mpr ⟨i, List.mem_range.mpr hi, rfl⟩
  have hU := indiciesLoop_union dt Pns W hs hP
    ((Int.fdiv (dt.getLastD 0) Pns) - (Int.fdiv (dt.headD 0) Pns) + 1).toNat
    (Int.fdiv (dt.headD 0) Pns) 0 [] hn0 hfit'
  rw [← hpr] at hU
  have hk0L : Int.fdiv (dt.headD 0) Pns
      + ((((Int.fdiv (dt.getLastD 0) Pns)
          - (Int.fdiv (dt.headD 0) Pns) + 1).toNat : ℕ) : ℤ) - 1
      = Int.fdiv (dt.getLastD 0) Pns := by
    rw [hL]; ring
  rw [hk0L] at hU
  have hall : dt.countP (fun t =>
      decide (t < period_end_time Pns (Int.fdiv (dt.getLastD 0) Pns)))
        = dt.length := by
    rw [List.countP_eq_length]
    intro t ht
    have h1 : t ≤ dt.getLastD 0 := sorted_le_getLastD hs t ht
    simp only [decide_eq_true_eq]
    omega
  rw [hall] at hU
  obtain ⟨tl, htl, htiles⟩ := indiciesLoop_tiles dt Pns W hs
    (period_range (dt.headD 0) (dt.getLastD 0) Pns) 0 []
  rw [htl, List.nil_append]
  rw [hU] at htiles
  have hcov := htiles.coverage j
  constructor
  · intro hj
    exact hcov.mp ⟨Nat.zero_le _, hj⟩
  · intro hex
    exact (hcov.mpr hex).2

/-- C1 (amended): for a strictly time-ordered index, (a) the recorded
ranges are nonempty, strictly index-ascending and pairwise disjoint; (b)
each period is searched only in the window of at most
`MAX_SAMPLES_PER_2_PERIODS` samples starting at the scan position, and the
scan position after any prefix of periods is the end index of the last
resolved range (or 0, unchanged by sample-less periods); (c) the union of
the ranges is the full span `[0, length)` whenever every period's fresh
matches fit inside the bounded window and the last timestamp lies strictly
before the last period's end instant.  (The original claim's no-large-gap
condition does not suffice for (c); see the counterexample.) -/
theorem boundary_scan_spec (zts : List ZonedTime) (secs : ℤ) (b : Bool)
    (hs : (dt_index zts b).Pairwise (· < ·)) :
    ((∀ p ∈ (indicies_of_periods zts secs b).2, p.2.1 < p.2.2)
      ∧ ((indicies_of_periods zts secs b).2).Pairwise
          (fun p q => p.2.2 ≤ q.2.1))
    ∧ ((∀ (k : ℤ) (n : ℕ) (acc : List (ℤ × ℕ × ℕ)),
          (((dt_index zts b).drop n).take
              (MAX_SAMPLES_PER_2_PERIODS_of secs (dt_index zts b))).length
            ≤ MAX_SAMPLES_PER_2_PERIODS_of secs (dt_index zts b)
          ∧ indiciesLoop (dt_index zts b) (secs * NS_PER_SEC)
              (MAX_SAMPLES_PER_2_PERIODS_of secs (dt_index zts b)) [k] n acc
            = (if (((dt_index zts b).drop n).take
                    (MAX_SAMPLES_PER_2_PERIODS_of secs (dt_index zts b))).countP
                    (fun t => decide (t < period_end_time (secs * NS_PER_SEC) k))
                    = 0
               then (n, acc)
               else (n + (((dt_index zts b).drop n).take
                      (MAX_SAMPLES_PER_2_PERIODS_of secs
                        (dt_index zts b))).countP
                      (fun t => decide (t < period_end_time
                        (secs * NS_PER_SEC) k)),
                  acc ++ [(k, (n, n + (((dt_index zts b).drop n).take
                      (MAX_SAMPLES_PER_2_PERIODS_of secs
                        (dt_index zts b))).countP
                      (fun t => decide (t < period_end_time
                        (secs * NS_PER_SEC) k))))])))
      ∧ (∀ ks1 ks2 : List ℤ,
          (indicies_of_periods zts secs b).1 = ks1 ++ ks2 →
          indiciesLoop (dt_index zts b) (secs * NS_PER_SEC)
              (MAX_SAMPLES_PER_2_PERIODS_of secs (dt_index zts b))
              (ks1 ++ ks2) 0 []
            = indiciesLoop (dt_index zts b) (secs * NS_PER_SEC)
                (MAX_SAMPLES_PER_2_PERIODS_of secs (dt_index zts b)) ks2
                (indiciesLoop (dt_index zts b) (secs * NS_PER_SEC)
                  (MAX_SAMPLES_PER_2_PERIODS_of secs (dt_index zts b))
                  ks1 0 []).1
                (indiciesLoop (dt_index zts b) (secs * NS_PER_SEC)
                  (MAX_SAMPLES_PER_2_PERIODS_of secs (dt_index zts b))
                  ks1 0 []).2
          ∧ (indiciesLoop (dt_index zts b) (secs * NS_PER_SEC)
              (MAX_SAMPLES_PER_2_PERIODS_of secs (dt_index zts b))
              ks1 0 []).1
            = (((indiciesLoop (dt_index zts b) (secs * NS_PER_SEC)
                (MAX_SAMPLES_PER_2_PERIODS_of secs (dt_index zts b))
                ks1 0 []).2).getLast?.map (fun p => p.2.2)).getD 0))
    ∧ (dt_index zts b ≠ [] →
        1 ≤ secs * NS_PER_SEC →
        (∀ k ∈ (indicies_of_periods zts secs b).1,
          (dt_index zts b).countP (fun t =>
            decide (period_end_time (secs * NS_PER_SEC) (k - 1) ≤ t
              ∧ t < period_end_time (secs * NS_PER_SEC) k))
            ≤ MAX_SAMPLES_PER_2_PERIODS_of secs (dt_index zts b)) →
        ((dt_index zts b).getLastD 0
          < period_end_time (secs * NS_PER_SEC)
              (Int.fdiv ((dt_index zts b).getLastD 0)
                (secs * NS_PER_SEC))) →
        ∀ j : ℕ, j < (dt_index zts b).length ↔
          ∃ p ∈ (indicies_of_periods zts secs b).2,
            p.2.1 ≤ j ∧ j < p.2.2) := by
  have htiles := indicies_of_periods_tiles zts secs b hs
  refine ⟨⟨?_, ?_⟩, ⟨?_, ?_⟩, ?_⟩
  · intro p hp
    exact (htiles.bounds p hp).2.1
  · exact htiles.pairwise
  · intro k n acc
    refine ⟨List.length_take_le _ _, ?_⟩
    rw [indiciesLoop_cons _ _ _ _ _ _ _ (window_pairwise hs n _)]
    split_ifs with hm
    · rfl
    · rfl
  · intro ks1 ks2 hks
    refine ⟨indiciesLoop_append _ _ _ ks1 ks2 0 [], ?_⟩
    obtain ⟨tl, htl, htiles1⟩ := indiciesLoop_tiles (dt_index zts b)
      (secs * NS_PER_SEC) (MAX_SAMPLES_PER_2_PERIODS_of secs (dt_index zts b))
      hs ks1 0 []
    rw [htl, List.nil_append]
    exact htiles1.final_eq
  · intro hne hP hfit hlast j
    have hbs : (indicies_of_periods zts secs b).2
        = (indiciesLoop (dt_index zts b) (secs * NS_PER_SEC)
            (MAX_SAMPLES_PER_2_PERIODS_of secs (dt_index zts b))
            (period_range ((dt_index zts b).headD 0)
              ((dt_index zts b).getLastD 0) (secs * NS_PER_SEC)) 0 []).2 := rfl
    rw [hbs]
    exact resolver_union (dt_index zts b) (secs * NS_PER_SEC)
      (MAX_SAMPLES_PER_2_PERIODS_of secs (dt_index zts b)) hs hne hP hfit
      hlast j

/-- C1 counterexample: `tsC` is strictly increasing, no gap between
consecutive samples exceeds the one-minute period length, yet the union of
the recorded ranges misses the sample indices 10..13 — the dense one-second
tail overflows the bounded window (2 x MAX_SAMPLES_PER_PERIOD = 4 samples,
from the 30 s mode of the early gaps), so the no-large-gap condition of the
claim does not imply full coverage. -/
theorem boundary_union_gap_cex :
    (tsC.Pairwise (· < ·)
      ∧ (∀ d ∈ fwdDiff tsC, d ≤ 60 * NS_PER_SEC)
      ∧ dt_index ztsC false = tsC)
    ∧ ¬ (∀ j : ℕ, j < tsC.length ↔
        ∃ p ∈ (indicies_of_periods ztsC 60 false).2,
          p.2.1 ≤ j ∧ j < p.2.2) := by
  constructor
  · exact ⟨by decide, by decide, rfl⟩
  · intro hcl
    have hsp : sample_period (dt_index ztsC false) = 30 := by
      have h1 : dt_index ztsC false = tsC := rfl
      rw [h1]
      norm_num [sample_period, modeOf, fwdDiff, NS_PER_SEC, List.count, tsC]
    have hW : MAX_SAMPLES_PER_2_PERIODS_of 60 (dt_index ztsC false) = 4 := by
      unfold MAX_SAMPLES_PER_2_PERIODS_of MAX_SAMPLES_PER_PERIOD_of
        MIN_SAMPLE_PERIOD_of
      rw [hsp]
      norm_num [pyInt]
      rfl
    have hbs0 : (indicies_of_periods ztsC 60 false).2
        = (indiciesLoop (dt_index ztsC false) (60 * NS_PER_SEC)
            (MAX_SAMPLES_PER_2_PERIODS_of 60 (dt_index ztsC false))
            (period_range ((dt_index ztsC false).headD 0)
              ((dt_index ztsC false).getLastD 0) (60 * NS_PER_SEC))
            0 []).2 := rfl
    rw [hW] at hbs0
    have hbs : (indicies_of_periods ztsC 60 false).2
        = [(0, (0, 2)), (1, (2, 4)), (2, (4, 6)), (3, (6, 10))] := by
      rw [hbs0]
      decide
    have h10 := (hcl 10).mp (by decide)
    rw [hbs] at h10
    exact absurd h10 (by decide)

/-- Witness for the C1 theorem at the concrete index `ztsA` with minutely
granularity. -/
theorem boundary_scan_spec_witness :
    (dt_index ztsA false).Pairwise (· < ·)
    ∧ (((∀ p ∈ (indicies_of_periods ztsA 60 false).2, p.2.1 < p.2.2)
      ∧ ((indicies_of_periods ztsA 60 false).2).Pairwise
          (fun p q => p.2.2 ≤ q.2.1))
    ∧ ((∀ (k : ℤ) (n : ℕ) (acc : List (ℤ × ℕ × ℕ)),
          (((dt_index ztsA false).drop n).take
              (MAX_SAMPLES_PER_2_PERIODS_of 60 (dt_index ztsA false))).length
            ≤ MAX_SAMPLES_PER_2_PERIODS_of 60 (dt_index ztsA false)
          ∧ indiciesLoop (dt_index ztsA false) (60 * NS_PER_SEC)
              (MAX_SAMPLES_PER_2_PERIODS_of 60 (dt_index ztsA false)) [k] n acc
            = (if (((dt_index ztsA false).drop n).take
                    (MAX_SAMPLES_PER_2_PERIODS_of 60 (dt_index ztsA false))).countP
                    (fun t => decide (t < period_end_time (60 * NS_PER_SEC) k))
                    = 0
               then (n, acc)
               else (n + (((dt_index ztsA false).drop n).take
                      (MAX_SAMPLES_PER_2_PERIODS_of 60
                        (dt_index ztsA false))).countP
                      (fun t => decide (t < period_end_time
                        (60 * NS_PER_SEC) k)),
                  acc ++ [(k, (n, n + (((dt_index ztsA false).drop n).take
                      (MAX_SAMPLES_PER_2_PERIODS_of 60
                        (dt_index ztsA false))).countP
                      (fun t => decide (t < period_end_time
                        (60 * NS_PER_SEC) k))))])))
      ∧ (∀ ks1 ks2 : List ℤ,
          (indicies_of_periods ztsA 60 false).1 = ks1 ++ ks2 →
          indiciesLoop (dt_index ztsA false) (60 * NS_PER_SEC)
              (MAX_SAMPLES_PER_2_PERIODS_of 60 (dt_index ztsA false))
              (ks1 ++ ks2) 0 []
            = indiciesLoop (dt_index ztsA false) (60 * NS_PER_SEC)
                (MAX_SAMPLES_PER_2_PERIODS_of 60 (dt_index ztsA false)) ks2
                (indiciesLoop (dt_index ztsA false) (60 * NS_PER_SEC)
                  (MAX_SAMPLES_PER_2_PERIODS_of 60 (dt_index ztsA false))
                  ks1 0 []).1
                (indiciesLoop (dt_index ztsA false) (60 * NS_PER_SEC)
                  (MAX_SAMPLES_PER_2_PERIODS_of 60 (dt_index ztsA false))
                  ks1 0 []).2
          ∧ (indiciesLoop (dt_index ztsA false) (60 * NS_PER_SEC)
              (MAX_SAMPLES_PER_2_PERIODS_of 60 (dt_index ztsA false))
              ks1 0 []).1
            = (((indiciesLoop (dt_index ztsA false) (60 * NS_PER_SEC)
                (MAX_SAMPLES_PER_2_PERIODS_of 60 (dt_index ztsA false))
                ks1 0 []).2).getLast?.map (fun p => p.2.2)).getD 0))
    ∧ (dt_index ztsA false ≠ [] →
        1 ≤ 60 * NS_PER_SEC →
        (∀ k ∈ (indicies_of_periods ztsA 60 false).1,
          (dt_index ztsA false).countP (fun t =>
            decide (period_end_time (60 * NS_PER_SEC) (k - 1) ≤ t
              ∧ t < period_end_time (60 * NS_PER_SEC) k))
            ≤ MAX_SAMPLES_PER_2_PERIODS_of 60 (dt_index ztsA false)) →
        ((dt_index ztsA false).getLastD 0
          < period_end_time (60 * NS_PER_SEC)
              (Int.fdiv ((dt_index ztsA false).getLastD 0)
                (60 * NS_PER_SEC))) →
        ∀ j : ℕ, j < (dt_index ztsA false).length ↔
          ∃ p ∈ (indicies_of_periods ztsA 60 false).2,
            p.2.1 ≤ j ∧ j < p.2.2)) :=
  ⟨by decide, boundary_scan_spec ztsA 60 false (by decide)⟩

/-- Localisation shifts every UTC instant by the first sample's offset. -/
lemma dt_index_true_eq (zts : List ZonedTime) :
    dt_index zts true
      = zts.map (fun z => z.utc + (zts.headD ⟨0, 0⟩).offset) := by
  show zts.map (fun z => z.utc + (((zts.headD ⟨0, 0⟩).utc
      + (zts.headD ⟨0, 0⟩).offset) - (zts.headD ⟨0, 0⟩).utc)) = _
  apply List.map_congr_left
  intro z hz
  ring

/-- `_indicies_of_periods` depends on its input only through the localised
datetime index. -/
lemma indicies_of_periods_congr {a c : List ZonedTime} {ba bc : Bool}
    (secs : ℤ) (h : dt_index a ba = dt_index c bc) :
    indicies_of_periods a secs ba = indicies_of_periods c secs bc := by
  unfold indicies_of_periods
  rw [h]

/-- C7: with `use_local_time`, the scan runs on the sequence shifted by the
single zone offset of the first sample: (1) the result coincides with the
UTC-mode result on the shifted instants; (2) the offsets of all later
samples are never consulted; (3) for a constant offset `o` the generated
periods are those of the locally-shifted first/last instants, i.e. the
period boundaries fall on local civil time. -/
theorem local_time_shift_spec (zts : List ZonedTime) (secs : ℤ)
    (hne : zts ≠ []) :
    (indicies_of_periods zts secs true
      = indicies_of_periods (zts.map (fun z =>
          ZonedTime.mk (z.utc + (zts.headD ⟨0, 0⟩).offset) 0)) secs false)
    ∧ (∀ zts' : List ZonedTime,
        zts'.map ZonedTime.utc = zts.map ZonedTime.utc →
        (zts'.headD ⟨0, 0⟩).offset = (zts.headD ⟨0, 0⟩).offset →
        indicies_of_periods zts' secs true
          = indicies_of_periods zts secs true)
    ∧ (∀ o : ℤ, (∀ z ∈ zts, z.offset = o) →
        (indicies_of_periods zts secs true).1
          = period_range ((zts.headD ⟨0, 0⟩).utc + o)
              ((zts.getLastD ⟨0, 0⟩).utc + o) (secs * NS_PER_SEC)) := by
  have hmapc : ∀ (l : List ZonedTime) (c : ℤ),
      l.map (fun z => z.utc + c)
        = (l.map ZonedTime.utc).map (fun u => u + c) := by
    intro l c
    rw [List.map_map]
    rfl
  refine ⟨?_, ?_, ?_⟩
  · apply indicies_of_periods_congr
    rw [dt_index_true_eq]
    show _ = (zts.map (fun z =>
      ZonedTime.mk (z.utc + (zts.headD ⟨0, 0⟩).offset) 0)).map ZonedTime.utc
    rw [List.map_map]
    rfl
  · intro zts' hutc hoff
    apply indicies_of_periods_congr
    rw [dt_index_true_eq, dt_index_true_eq, hoff, hmapc, hmapc, hutc]
  · intro o ho
    have hoff0 : (zts.headD ⟨0, 0⟩).offset = o := by
      cases zts with
      | nil => exact absurd rfl hne
      | cons z rest => exact ho z (List.mem_cons_self z rest)
    have h1 : (indicies_of_periods zts secs true).1
        = period_range ((dt_index zts true).headD 0)
            ((dt_index zts true).getLastD 0) (secs * NS_PER_SEC) := rfl
    rw [h1, dt_index_true_eq, hoff0]
    cases zts with
    | nil => exact absurd rfl hne
    | cons z rest =>
      have hh : (List.map (fun w => w.utc + o) (z :: rest)).headD 0
          = ((z :: rest).headD ⟨0, 0⟩).utc + o := rfl
      have hl : (List.map (fun w => w.utc + o) (z :: rest)).getLastD 0
          = ((z :: rest).getLastD ⟨0, 0⟩).utc + o := by
        rw [List.getLastD_eq_getLast?, List.getLastD_eq_getLast?,
          List.getLast?_map]
        rw [List.getLast?_eq_getLast _ (List.cons_ne_nil z rest)]
        rfl
      rw [hh, hl]

/-- Witness for the C7 theorem at the concrete index `ztsB` (fixed UTC−4
offset) with daily granularity. -/
theorem local_time_shift_spec_witness :
    ztsB ≠ []
    ∧ ((indicies_of_periods ztsB 86400 true
      = indicies_of_periods (ztsB.map (fun z =>
          ZonedTime.mk (z.utc + (ztsB.headD ⟨0, 0⟩).offset) 0)) 86400 false)
    ∧ (∀ zts' : List ZonedTime,
        zts'.map ZonedTime.utc = ztsB.map ZonedTime.utc →
        (zts'.headD ⟨0, 0⟩).offset = (ztsB.headD ⟨0, 0⟩).offset →
        indicies_of_periods zts' 86400 true
          = indicies_of_periods ztsB 86400 true)
    ∧ (∀ o : ℤ, (∀ z ∈ ztsB, z.offset = o) →
        (indicies_of_periods ztsB 86400 true).1
          = period_range ((ztsB.headD ⟨0, 0⟩).utc + o)
              ((ztsB.getLastD ⟨0, 0⟩).utc + o) (86400 * NS_PER_SEC))) :=
  ⟨by decide, local_time_shift_spec ztsB 86400 (by decide)⟩

/-- On a recognised unit, `energy` returns `Except.ok` of `energy_val`. -/
lemma energy_ok (cap : Option ℤ) {unit : String}
    (h : unit = "kwh" ∨ unit = "joules") (data : List (ℤ × ℚ)) :
    energy data cap unit = Except.ok (energy_val data cap unit) := by
  rcases h with h | h <;> subst h
  · have hex : ∃ q, energy data cap "kwh" = Except.ok q := by simp [energy]
    obtain ⟨q, hq⟩ := hex
    unfold energy_val
    rw [hq]
    rfl
  · have hex : ∃ q, energy data cap "joules" = Except.ok q := by simp [energy]
    obtain ⟨q, hq⟩ := hex
    unfold energy_val
    rw [hq]
    rfl

/-- `Except.ok` followed by a bind reduces. -/
lemma except_ok_bind {epsilon alpha beta : Type} (a : alpha)
    (f : alpha → Except epsilon beta) : (Except.ok a >>= f) = f a := rfl

/-- Normal form of the aggregation fold of `usage_per_period`: when
`energy` cannot raise, the fold is the accumulated row list followed by one
row per period. -/
lemma usage_fold_normal (series2 : List (ℤ × ℚ)) (bs : List (ℤ × ℕ × ℕ))
    (MIN : ℚ) (thr : ℚ) (cap : Option ℤ) (unit : String)
    (hok : ∀ data : List (ℤ × ℚ),
      energy data cap unit = Except.ok (energy_val data cap unit)) :
    ∀ (ps : List ℤ) (acc : List (ℤ × Option ℚ × Option ℚ)),
      (ps.foldlM (fun rows period =>
        match bs.lookup period with
        | none => Except.ok (rows ++ [(period, none, none)])
        | some (s, e) =>
          let data_for_period := (series2.drop s).take (e - s)
          if (data_for_period.length : ℚ) < MIN then
            Except.ok (rows ++ [(period, none, none)])
          else
            match energy data_for_period cap unit with
            | Except.ok en => Except.ok (rows ++ [(period,
                some (hours_on data_for_period thr cap), some en)])
            | Except.error msg => Except.error msg) acc
        : Except String (List (ℤ × Option ℚ × Option ℚ)))
      = Except.ok (acc ++ ps.map (fun period =>
          match bs.lookup period with
          | none => (period, none, none)
          | some (s, e) =>
            let data_for_period := (series2.drop s).take (e - s)
            if (data_for_period.length : ℚ) < MIN then (period, none, none)
            else (period, some (hours_on data_for_period thr cap),
              some (energy_val data_for_period cap unit)))) := by
  intro ps
  induction ps with
  | nil =>
    intro acc
    simp only [List.foldlM_nil, List.map_nil, List.append_nil]
    rfl
  | cons p ps ih =>
    intro acc
    rw [List.foldlM_cons]
    beta_reduce
    cases hlk : bs.lookup p with
    | none =>
      simp only [hlk, except_ok_bind]
      rw [ih]
      simp only [hlk, List.map_cons, List.append_assoc,
        List.singleton_append]
    | some se =>
      rcases se with ⟨s, e⟩
      simp only [hlk]
      by_cases hlen : ((((series2.drop s).take (e - s)).length : ℚ)) < MIN
      · simp only [if_pos hlen, except_ok_bind]
        rw [ih]
        simp only [hlk, List.map_cons, List.append_assoc,
          List.singleton_append, if_pos hlen]
      · simp only [if_neg hlen, hok ((series2.drop s).take (e - s)),
          except_ok_bind]
        rw [ih]
        simp only [hlk, List.map_cons, List.append_assoc,
          List.singleton_append, if_neg hlen]
/-- C2: with a well-formed configuration, `usage_per_period` returns one
row per generated period, in period order: a period absent from the
boundary map gets `(none, none)`; a present period whose slice has fewer
samples than `MAX_SAMPLES_PER_PERIOD * (1 - max_dropout_rate)` (with
`MAX_SAMPLES_PER_PERIOD = secs_per_period / sample_period`) gets
`(none, none)`; every other period's row holds the `hours_on` and `energy`
of exactly that period's index sub-range. -/
theorem usage_rows_spec (series : List (ZonedTime × ℚ)) (secs : ℤ)
    (thr mdr : ℚ) (unit : String) (cap : Option ℤ)
    (hunit : unit = "kwh" ∨ unit = "joules")
    (hmdr : 0 ≤ mdr ∧ mdr ≤ 1) (hlen : 2 ≤ series.length) :
    (∀ data : List (ℤ × ℚ),
      energy data cap unit = Except.ok (energy_val data cap unit))
    ∧ usage_per_period series secs thr mdr unit cap = Except.ok
        (((indicies_of_periods (series.map Prod.fst) secs true).1).map
          (fun period =>
            match ((indicies_of_periods (series.map Prod.fst) secs
                true).2).lookup period with
            | none => (period, none, none)
            | some (s, e) =>
              let data_for_period :=
                ((series.map (fun x => (x.1.utc, x.2))).drop s).take (e - s)
              if (data_for_period.length : ℚ) <
                  ((secs : ℚ) / sample_period
                      (series.map (fun x => x.1.utc))) * (1 - mdr) then
                (period, none, none)
              else (period, some (hours_on data_for_period thr cap),
                some (energy_val data_for_period cap unit)))) := by
  refine ⟨energy_ok cap hunit, ?_⟩
  have hnn : ¬ ¬ (0 ≤ mdr ∧ mdr ≤ 1) := not_not_intro hmdr
  have hfold := usage_fold_normal (series.map (fun x => (x.1.utc, x.2)))
    ((indicies_of_periods (series.map Prod.fst) secs true).2)
    (((secs : ℚ) / sample_period (series.map (fun x => x.1.utc))) * (1 - mdr))
    thr cap unit (energy_ok cap hunit)
    ((indicies_of_periods (series.map Prod.fst) secs true).1) []
  rw [List.nil_append] at hfold
  show (if ¬ (0 ≤ mdr ∧ mdr ≤ 1) then
      Except.error "assert 0 <= max_dropout_rate <= 1"
    else _) = _
  rw [if_neg hnn]
  exact hfold

/-- A concrete two-sample series for the C2 witness: 100 W at 0 s and at
30 s, zero zone offset. -/
theorem usage_rows_spec_witness :
    (("joules" : String) = "kwh" ∨ ("joules" : String) = "joules")
    ∧ ((0 : ℚ) ≤ 1/2 ∧ (1/2 : ℚ) ≤ 1)
    ∧ 2 ≤ ([(⟨0, 0⟩, 100), (⟨30000000000, 0⟩, 100)]
        : List (ZonedTime × ℚ)).length
    ∧ ((∀ data : List (ℤ × ℚ),
        energy data none "joules" = Except.ok (energy_val data none "joules"))
    ∧ usage_per_period [(⟨0, 0⟩, 100), (⟨30000000000, 0⟩, 100)] 60 5 (1/2)
        "joules" none = Except.ok
        (((indicies_of_periods
            (([(⟨0, 0⟩, 100), (⟨30000000000, 0⟩, 100)]
              : List (ZonedTime × ℚ)).map Prod.fst) 60 true).1).map
          (fun period =>
            match ((indicies_of_periods
                (([(⟨0, 0⟩, 100), (⟨30000000000, 0⟩, 100)]
                  : List (ZonedTime × ℚ)).map Prod.fst) 60 true).2).lookup
                  period with
            | none => (period, none, none)
            | some (s, e) =>
              let data_for_period :=
                ((([(⟨0, 0⟩, 100), (⟨30000000000, 0⟩, 100)]
                  : List (ZonedTime × ℚ)).map
                    (fun x => (x.1.utc, x.2))).drop s).take (e - s)
              if (data_for_period.length : ℚ) <
                  ((60 : ℚ) / sample_period
                      (([(⟨0, 0⟩, 100), (⟨30000000000, 0⟩, 100)]
                        : List (ZonedTime × ℚ)).map (fun x => x.1.utc)))
                    * (1 - 1/2) then
                (period, none, none)
              else (period, some (hours_on data_for_period 5 none),
                some (energy_val data_for_period none "joules"))))) :=
  ⟨Or.inr rfl, by norm_num, by norm_num,
   usage_rows_spec [(⟨0, 0⟩, 100), (⟨30000000000, 0⟩, 100)] 60 5 (1/2)
    "joules" none (Or.inr rfl) (by norm_num) (by norm_num)⟩

end Nilmtk
